import Mathlib

/-!
# Verification of the sitemap generator (`src/app.py`)

Shallow embedding of the URL-reconciliation core of the sitemap generator:
the URL normalizer (`normalize_url`), the line cleaner (`clean_lines`), the
existing-sitemap collection loop (`existing_urls`), the addition/duplicate
loop (`final_urls` / `duplicates`) and the top-level control flow of the
generate button.

Python strings are modelled as `List Char`; Python `str.strip` as trimming
ASCII whitespace from both ends, `str.lower` as ASCII case folding, and the
XML layer abstractly: a parsed document is a list of `url` elements, each
carrying the text of its `loc` child (`none` when the element is missing or
its text is `None`) and likewise for `lastmod`.
-/

abbrev Str := List Char

/-- Whitespace for the model of Python `str.strip`. -/
def isWs (c : Char) : Bool := c.isWhitespace

/-- Drop trailing characters satisfying `Char.isWhitespace`. -/
def dropTrailingWs (s : Str) : Str := ((s.reverse).dropWhile isWs).reverse

/-- Model of Python `str.strip()`: remove leading and trailing whitespace. -/
def pyStrip (s : Str) : Str := dropTrailingWs (s.dropWhile isWs)

/-- ASCII case folding of one character (model of `str.lower` per character). -/
def lowerChar (c : Char) : Char :=
  if 65 ≤ c.toNat ∧ c.toNat ≤ 90 then Char.ofNat (c.toNat + 32) else c

/-- Model of Python `str.lower()`. -/
def pyLower (s : Str) : Str := s.map lowerChar

/-- Model of Python substring test `pat in s`. -/
def strContains (s pat : Str) : Bool :=
  match s with
  | [] => pat.isEmpty
  | _ :: t => pat.isPrefixOf s || strContains t pat

/-- Model of `s.endswith("/")`. -/
def endsWithSlash (s : Str) : Bool := s.getLast? = some '/'

/-- The configuration options read by the reconciliation core
(`lower_case_urls`, `normalize_trailing_slash`, `dedupe_existing` in
`src/app.py`). -/
structure Config where
  lower_case_urls : Bool
  normalize_trailing_slash : Bool
  dedupe_existing : Bool
deriving DecidableEq

/-- The function `normalize_url` from `src/app.py` (lines 96-104): strip, optionally
lowercase, and when trailing-slash trimming is on and the string is longer
than one character, remove one trailing `/` when the string ends with `/`,
contains `://` and has more than two `/` characters. -/
def normalize_url (cfg : Config) (u0 : Str) : Str :=
  let u1 := pyStrip u0
  let u2 := if cfg.lower_case_urls then pyLower u1 else u1
  if cfg.normalize_trailing_slash ∧ u2.length > 1 then
    if endsWithSlash u2 ∧ strContains u2 ([':', '/', '/']) ∧ u2.count '/' > 2 then
      u2.dropLast
    else u2
  else u2

/-- The function `clean_lines` from `src/app.py` (lines 106-109): empty input gives `[]`;
otherwise strip the whole text, split on newlines, keep the lines whose strip
is non-empty, and normalize each kept line. -/
def clean_lines (cfg : Config) (raw : Str) : List Str :=
  if raw = [] then []
  else (((pyStrip raw).splitOn '\n').filter (fun l => pyStrip l ≠ [])).map
    (normalize_url cfg)

/-- One `url` element of the parsed document: the text of its `loc` child
(`none` when the child is absent or has no text) and likewise `lastmod`. -/
structure UrlElem where
  locText : Option Str
  lastmodText : Option Str
deriving DecidableEq

/-- The `lastmod` value recorded for an element (`src/app.py` line 148):
the stripped text when the element is present with non-empty text, else
`None`. -/
def lastmodOf (e : UrlElem) : Option Str :=
  match e.lastmodText with
  | some t => if t = [] then none else some (pyStrip t)
  | none => none

/-- A final sitemap entry: `(loc, lastmod)`. -/
abbrev Entry := Str × Option Str

/-- The loop of `src/app.py` lines 135-156 collecting `existing_urls`,
with the mutable `seen` set threaded explicitly: skip elements with a
missing or empty `loc` text, normalize, skip excluded locations, and when
`dedupe_existing` is on skip locations already seen and record new ones. -/
def parseLoop (cfg : Config) (excl : List Str) :
    List UrlElem → List Str → List Entry
  | [], _ => []
  | e :: rest, seen =>
    match e.locText with
    | none => parseLoop cfg excl rest seen
    | some t =>
      if t = [] then parseLoop cfg excl rest seen
      else
        let lt := normalize_url cfg t
        if lt ∈ excl then parseLoop cfg excl rest seen
        else if cfg.dedupe_existing then
          if lt ∈ seen then parseLoop cfg excl rest seen
          else (lt, lastmodOf e) :: parseLoop cfg excl rest (lt :: seen)
        else (lt, lastmodOf e) :: parseLoop cfg excl rest seen

/-- The list `existing_urls` from `src/app.py`: the collection loop started with an
empty `seen` set. -/
def existing_urls (cfg : Config) (excl : List Str) (elems : List UrlElem) :
    List Entry :=
  parseLoop cfg excl elems []

/-- The loop of `src/app.py` lines 162-173 over `add_urls`, with `new_seen`
threaded explicitly; returns the accepted entries (in input order, each with
the configured `lastmod` date) and the `duplicates` list. Empty addition
strings are skipped (`if not new_url: continue`). -/
def addLoop (existingLocs : List Str) (d : Str) :
    List Str → List Str → List Entry × List Str
  | [], _ => ([], [])
  | a :: rest, newSeen =>
    if a = [] then addLoop existingLocs d rest newSeen
    else if a ∈ existingLocs ∨ a ∈ newSeen then
      let r := addLoop existingLocs d rest newSeen
      (r.1, a :: r.2)
    else
      let r := addLoop existingLocs d rest (a :: newSeen)
      ((a, some d) :: r.1, r.2)

/-- The list `final_urls` from `src/app.py`: the surviving existing entries followed
by the accepted additions (the code copies `existing_urls` and appends). -/
def final_urls (cfg : Config) (excl : List Str) (elems : List UrlElem)
    (adds : List Str) (d : Str) : List Entry :=
  let ex := existing_urls cfg excl elems
  ex ++ (addLoop (ex.map Prod.fst) d adds []).1

/-- The `duplicates` list from `src/app.py` lines 162-171. -/
def duplicates (cfg : Config) (excl : List Str) (elems : List UrlElem)
    (adds : List Str) (d : Str) : List Str :=
  let ex := existing_urls cfg excl elems
  (addLoop (ex.map Prod.fst) d adds []).2

/-- Outcome of pressing the generate button (`src/app.py` lines 114-216):
either the missing-upload warning (line 116, `st.stop`), the
`ET.ParseError` handler (line 211), or a successfully generated sitemap
with its duplicate report. -/
inductive RunResult where
  | missingInput : RunResult
  | parseFailed (msg : Str) : RunResult
  | success (final : List Entry) (dups : List Str) : RunResult
deriving DecidableEq

/-- The upload as the pipeline sees it: `none` when no file was uploaded,
`some (.error m)` when `ET.parse` raises `ParseError m`, `some (.ok elems)`
when parsing yields the document's `url` elements. -/
abbrev Upload := Option (Except Str (List UrlElem))

/-- Top-level control flow of the generate button: warn and stop when no
file is uploaded; surface `ParseError` distinctly; otherwise clean the two
text areas, collect, reconcile and emit the final entries and duplicate
report. -/
def runPipeline (cfg : Config) (uploaded : Upload)
    (exclRaw addRaw : Str) (d : Str) : RunResult :=
  match uploaded with
  | none => .missingInput
  | some (.error m) => .parseFailed m
  | some (.ok elems) =>
    let excl := clean_lines cfg exclRaw
    let adds := clean_lines cfg addRaw
    .success (final_urls cfg excl elems adds d)
      (duplicates cfg excl elems adds d)

/-- The sitemap bytes made available for download: only a successful run
produces them (abstracted to the final entry list rendered). -/
def sitemapOutput : RunResult → Option (List Entry)
  | .success f _ => some f
  | _ => none

/-- Addition pass as the spec states it (§4.3): for each addition, if its
location is in the existing-membership set OR already accepted earlier in
this same pass, record it in `duplicates` and skip; otherwise append
`(location, add_lastmod)` and add it to the running accepted set. Written
from the spec's words, to be compared with `addLoop` from the code. -/
def specLoop (existingLocs : List Str) (d : Str) :
    List Str → List Str → List Entry × List Str
  | [], _ => ([], [])
  | a :: rest, accepted =>
    if a ∈ existingLocs ∨ a ∈ accepted then
      let r := specLoop existingLocs d rest accepted
      (r.1, a :: r.2)
    else
      let r := specLoop existingLocs d rest (a :: accepted)
      ((a, some d) :: r.1, r.2)

/-- Entries of the uploaded document that survive the per-element filters,
in document order: elements with a present, non-empty `loc` text whose
normalized location is not excluded, before any deduplication. -/
def survivors (cfg : Config) (excl : List Str) (elems : List UrlElem) :
    List Entry :=
  elems.filterMap (fun e =>
    match e.locText with
    | none => none
    | some t =>
      if t = [] then none
      else
        let lt := normalize_url cfg t
        if lt ∈ excl then none else some (lt, lastmodOf e))

/-- Keep only the first occurrence (by position) of each location, starting
from an already-seen set. -/
def keepFirst : List Entry → List Str → List Entry
  | [], _ => []
  | p :: rest, seen =>
    if p.1 ∈ seen then keepFirst rest seen
    else p :: keepFirst rest (p.1 :: seen)

/-! ## Lemmas about the string primitives -/

theorem dropTrailingWs_eq (s : Str) : dropTrailingWs s = List.rdropWhile isWs s := rfl

theorem pyStrip_eq (s : Str) :
    pyStrip s = List.rdropWhile isWs (s.dropWhile isWs) := rfl

theorem head?_of_isPrefix {α : Type} {r l : List α} (h : r <+: l)
    (hne : r ≠ []) : l.head? = r.head? := by
  obtain ⟨t, rfl⟩ := h
  rcases r with _ | ⟨c, r'⟩
  · exact absurd rfl hne
  · rfl

theorem dropWhile_rdropWhile_dropWhile (s : Str) :
    List.dropWhile isWs (List.rdropWhile isWs (s.dropWhile isWs))
      = List.rdropWhile isWs (s.dropWhile isWs) := by
  rw [List.dropWhile_eq_self_iff]
  intro hl
  have hne : List.rdropWhile isWs (s.dropWhile isWs) ≠ [] := List.length_pos.mp hl
  have hpre := List.rdropWhile_prefix isWs (s.dropWhile isWs)
  have hh : (s.dropWhile isWs).head?
      = (List.rdropWhile isWs (s.dropWhile isWs)).head? :=
    head?_of_isPrefix hpre hne
  have hlen : 0 < (s.dropWhile isWs).length := by
    obtain ⟨t, ht⟩ := List.rdropWhile_prefix isWs (s.dropWhile isWs)
    rw [← ht, List.length_append]
    have := List.length_pos.mpr hne
    omega
  have hheads : (List.rdropWhile isWs (s.dropWhile isWs)).get ⟨0, hl⟩
      = (s.dropWhile isWs).head (List.length_pos.mp hlen) := by
    rw [List.get_mk_zero hl, List.head_eq_iff_head?_eq_some, ← hh]
    exact List.head?_eq_head _
  rw [hheads]
  have h0 := List.dropWhile_get_zero_not (p := isWs) s hlen
  rw [List.get_mk_zero hlen] at h0
  exact h0

theorem pyStrip_idem (s : Str) : pyStrip (pyStrip s) = pyStrip s := by
  rw [pyStrip_eq (pyStrip s), pyStrip_eq s, dropWhile_rdropWhile_dropWhile,
    List.rdropWhile_idempotent]

theorem pyStrip_head? (s : Str) {c : Char} (h : (pyStrip s).head? = some c) :
    isWs c = false := by
  have hne : pyStrip s ≠ [] := by
    intro hnil
    rw [hnil] at h
    exact Option.noConfusion h
  have hl : 0 < (pyStrip s).length := List.length_pos.mpr hne
  have key : List.dropWhile isWs (pyStrip s) = pyStrip s :=
    dropWhile_rdropWhile_dropWhile s
  rw [List.dropWhile_eq_self_iff] at key
  have hnot := key hl
  have hc : (pyStrip s).get ⟨0, hl⟩ = c := by
    rw [List.get_mk_zero hl, List.head_eq_iff_head?_eq_some]
    exact h
  rw [hc] at hnot
  simpa using hnot

theorem pyStrip_getLast? (s : Str) {c : Char}
    (h : (pyStrip s).getLast? = some c) : isWs c = false := by
  have hne : pyStrip s ≠ [] := by
    intro hnil
    rw [hnil] at h
    exact Option.noConfusion h
  have hlast : ¬ isWs ((pyStrip s).getLast hne) :=
    List.rdropWhile_last_not isWs (s.dropWhile isWs) hne
  have hc : (pyStrip s).getLast hne = c := by
    have h2 := List.getLast?_eq_getLast (pyStrip s) hne
    rw [h2] at h
    exact Option.some.inj h
  rw [hc] at hlast
  simpa using hlast

theorem char_toNat_ofNat {n : Nat} (h : n < 55296) : (Char.ofNat n).toNat = n := by
  have hv : n.isValidChar := Or.inl h
  rw [Char.ofNat, dif_pos hv]
  rfl

theorem char_toNat_inj {a b : Char} (h : a.toNat = b.toNat) : a = b := by
  have ha := Char.ofNat_toNat a
  rw [← ha, h, Char.ofNat_toNat]

theorem isWs_iff (c : Char) :
    isWs c = true ↔ c.toNat = 32 ∨ c.toNat = 9 ∨ c.toNat = 13 ∨ c.toNat = 10 := by
  constructor
  · intro h
    have h2 : c = ' ' ∨ c = '\t' ∨ c = '\r' ∨ c = '\n' := by
      simpa [isWs, Char.isWhitespace, or_assoc] using h
    rcases h2 with h2 | h2 | h2 | h2 <;> subst h2 <;> simp
  · intro h
    have h2 : c = ' ' ∨ c = '\t' ∨ c = '\r' ∨ c = '\n' := by
      rcases h with h | h | h | h
      · exact Or.inl (char_toNat_inj h)
      · exact Or.inr (Or.inl (char_toNat_inj h))
      · exact Or.inr (Or.inr (Or.inl (char_toNat_inj h)))
      · exact Or.inr (Or.inr (Or.inr (char_toNat_inj h)))
    rcases h2 with h2 | h2 | h2 | h2 <;> subst h2 <;> rfl

theorem isWs_false_of (c : Char)
    (h : ¬(c.toNat = 32 ∨ c.toNat = 9 ∨ c.toNat = 13 ∨ c.toNat = 10)) :
    isWs c = false := by
  cases hb : isWs c
  · rfl
  · exact absurd ((isWs_iff c).mp hb) h

theorem lowerChar_toNat {c : Char} (h : 65 ≤ c.toNat ∧ c.toNat ≤ 90) :
    (lowerChar c).toNat = c.toNat + 32 := by
  rw [lowerChar, if_pos h]
  exact char_toNat_ofNat (by omega)

theorem lowerChar_eq_self {c : Char} (h : ¬(65 ≤ c.toNat ∧ c.toNat ≤ 90)) :
    lowerChar c = c := by
  rw [lowerChar, if_neg h]

theorem isWs_lowerChar (c : Char) : isWs (lowerChar c) = isWs c := by
  by_cases h : 65 ≤ c.toNat ∧ c.toNat ≤ 90
  · have h1 := lowerChar_toNat h
    have h2 : isWs (lowerChar c) = false := isWs_false_of _ (by omega)
    have h3 : isWs c = false := isWs_false_of _ (by omega)
    rw [h2, h3]
  · rw [lowerChar_eq_self h]

theorem lowerChar_idem (c : Char) : lowerChar (lowerChar c) = lowerChar c := by
  by_cases h : 65 ≤ c.toNat ∧ c.toNat ≤ 90
  · have h1 := lowerChar_toNat h
    exact lowerChar_eq_self (by omega)
  · rw [lowerChar_eq_self h]
    exact lowerChar_eq_self h

theorem pyLower_idem (s : Str) : pyLower (pyLower s) = pyLower s := by
  simp only [pyLower, List.map_map]
  exact List.map_congr_left (fun a _ => lowerChar_idem a)

theorem pyStrip_eq_self (s : Str)
    (h1 : ∀ c, s.head? = some c → isWs c = false)
    (h2 : ∀ c, s.getLast? = some c → isWs c = false) : pyStrip s = s := by
  rcases s with _ | ⟨a, t⟩
  · rfl
  · rw [pyStrip_eq]
    have hdrop : List.dropWhile isWs (a :: t) = a :: t := by
      rw [List.dropWhile_cons, if_neg]
      rw [h1 a rfl]
      simp
    rw [hdrop, List.rdropWhile_eq_self_iff]
    intro hl
    have := h2 ((a :: t).getLast hl) (List.getLast?_eq_getLast _ hl)
    rw [this]
    simp

theorem pyStrip_pyLower_pyStrip (s : Str) :
    pyStrip (pyLower (pyStrip s)) = pyLower (pyStrip s) := by
  apply pyStrip_eq_self
  · intro c hc
    rw [pyLower, List.head?_map] at hc
    rcases ho : (pyStrip s).head? with _ | c0
    · rw [ho] at hc
      exact Option.noConfusion hc
    · rw [ho] at hc
      simp only [Option.map_some'] at hc
      rw [← Option.some.inj hc, isWs_lowerChar]
      exact pyStrip_head? s ho
  · intro c hc
    rw [pyLower, List.getLast?_map] at hc
    rcases ho : (pyStrip s).getLast? with _ | c0
    · rw [ho] at hc
      exact Option.noConfusion hc
    · rw [ho] at hc
      simp only [Option.map_some'] at hc
      rw [← Option.some.inj hc, isWs_lowerChar]
      exact pyStrip_getLast? s ho

theorem head?_dropLast {α : Type} (l : List α) (h : 2 ≤ l.length) :
    l.dropLast.head? = l.head? := by
  rcases l with _ | ⟨a, _ | ⟨b, t⟩⟩
  · rfl
  · simp at h
  · simp

theorem mem_dropWhile_of_not {c : Char} {l : Str} (hm : c ∈ l)
    (hw : isWs c = false) : c ∈ l.dropWhile isWs := by
  induction l with
  | nil => cases hm
  | cons a t ih =>
    rw [List.dropWhile_cons]
    by_cases ha : isWs a = true
    · rw [if_pos ha]
      rcases List.mem_cons.mp hm with rfl | hmt
      · rw [hw] at ha
        exact Bool.noConfusion ha
      · exact ih hmt
    · rw [if_neg ha]
      exact hm

theorem mem_pyStrip {c : Char} {l : Str} (hm : c ∈ l) (hw : isWs c = false) :
    c ∈ pyStrip l := by
  rw [pyStrip_eq, List.rdropWhile, List.mem_reverse]
  apply mem_dropWhile_of_not _ hw
  rw [List.mem_reverse]
  exact mem_dropWhile_of_not hm hw

theorem pyStrip_ne_nil {l : Str} {c : Char} (hm : c ∈ l) (hw : isWs c = false) :
    pyStrip l ≠ [] :=
  List.ne_nil_of_mem (mem_pyStrip hm hw)

theorem trim_step_ne_nil (b : Prop) [Decidable b] (s : Str) (hs : s ≠ []) :
    (if b ∧ s.length > 1 then
      (if endsWithSlash s ∧ strContains s ([':', '/', '/']) ∧ s.count '/' > 2
        then s.dropLast else s) else s) ≠ [] := by
  split_ifs with h1 h2
  · intro hnil
    have hc := List.count_le_length (a := '/') (l := s)
    have h4 : s.dropLast.length = 0 := by
      rw [hnil]
      rfl
    rw [List.length_dropLast] at h4
    have h3 := h2.2.2
    omega
  · exact hs
  · exact hs

/-- The function `normalize_url` never turns a string with non-blank content
into the empty string: trailing-slash removal only fires on strings with
more than two `/` characters. -/
theorem normalize_ne_nil (cfg : Config) (u : Str) (h : pyStrip u ≠ []) :
    normalize_url cfg u ≠ [] := by
  have hlow : (if cfg.lower_case_urls then pyLower (pyStrip u) else pyStrip u) ≠ [] := by
    by_cases hlc : cfg.lower_case_urls = true
    · rw [if_pos hlc]
      intro hnil
      exact h (List.map_eq_nil_iff.mp hnil)
    · rw [if_neg hlc]
      exact h
  exact trim_step_ne_nil (cfg.normalize_trailing_slash = true)
    (if cfg.lower_case_urls then pyLower (pyStrip u) else pyStrip u) hlow

/-! ## Lemmas about the collection loop (`parseLoop`) -/

theorem parseLoop_eq_keepFirst (cfg : Config) (excl : List Str)
    (hd : cfg.dedupe_existing = true) :
    ∀ (elems : List UrlElem) (seen : List Str),
      parseLoop cfg excl elems seen = keepFirst (survivors cfg excl elems) seen := by
  intro elems
  induction elems with
  | nil => intro seen; rfl
  | cons e rest ih =>
    intro seen
    simp only [parseLoop, survivors, List.filterMap_cons]
    rcases hloc : e.locText with _ | t
    · simp only [hloc]
      exact ih seen
    · simp only [hloc]
      by_cases h0 : t = []
      · simp only [if_pos h0]
        exact ih seen
      · simp only [if_neg h0]
        by_cases h1 : normalize_url cfg t ∈ excl
        · simp only [if_pos h1]
          exact ih seen
        · simp only [if_neg h1, if_pos hd, keepFirst]
          by_cases h2 : normalize_url cfg t ∈ seen
          · simp only [if_pos h2]
            exact ih seen
          · simp only [if_neg h2]
            exact congrArg _ (ih (normalize_url cfg t :: seen))

theorem parseLoop_eq_survivors (cfg : Config) (excl : List Str)
    (hd : cfg.dedupe_existing = false) :
    ∀ (elems : List UrlElem) (seen : List Str),
      parseLoop cfg excl elems seen = survivors cfg excl elems := by
  intro elems
  induction elems with
  | nil => intro seen; rfl
  | cons e rest ih =>
    intro seen
    have hd2 : ¬ (cfg.dedupe_existing = true) := by
      rw [hd]
      exact Bool.false_ne_true
    simp only [parseLoop, survivors, List.filterMap_cons]
    rcases hloc : e.locText with _ | t
    · simp only [hloc]
      exact ih seen
    · simp only [hloc]
      by_cases h0 : t = []
      · simp only [if_pos h0]
        exact ih seen
      · simp only [if_neg h0]
        by_cases h1 : normalize_url cfg t ∈ excl
        · simp only [if_pos h1]
          exact ih seen
        · simp only [if_neg h1, if_neg hd2]
          exact congrArg _ (ih seen)

theorem keepFirst_mem {p : Entry} :
    ∀ (s : List Entry) (seen : List Str), p ∈ keepFirst s seen → p ∈ s := by
  intro s
  induction s with
  | nil => intro seen h; exact absurd h (by simp [keepFirst])
  | cons q rest ih =>
    intro seen h
    rw [keepFirst] at h
    by_cases hq : q.1 ∈ seen
    · rw [if_pos hq] at h
      exact List.mem_cons_of_mem q (ih seen h)
    · rw [if_neg hq] at h
      rcases List.mem_cons.mp h with rfl | h2
      · exact List.mem_cons_self _ _
      · exact List.mem_cons_of_mem q (ih (q.1 :: seen) h2)

theorem keepFirst_not_seen {p : Entry} :
    ∀ (s : List Entry) (seen : List Str), p ∈ keepFirst s seen → p.1 ∉ seen := by
  intro s
  induction s with
  | nil => intro seen h; exact absurd h (by simp [keepFirst])
  | cons q rest ih =>
    intro seen h
    rw [keepFirst] at h
    by_cases hq : q.1 ∈ seen
    · rw [if_pos hq] at h
      exact ih seen h
    · rw [if_neg hq] at h
      rcases List.mem_cons.mp h with rfl | h2
      · exact hq
      · intro hmem
        exact ih (q.1 :: seen) h2 (List.mem_cons_of_mem q.1 hmem)

theorem keepFirst_nodup :
    ∀ (s : List Entry) (seen : List Str),
      ((keepFirst s seen).map Prod.fst).Nodup := by
  intro s
  induction s with
  | nil => intro seen; simp [keepFirst]
  | cons q rest ih =>
    intro seen
    rw [keepFirst]
    by_cases hq : q.1 ∈ seen
    · rw [if_pos hq]
      exact ih seen
    · rw [if_neg hq, List.map_cons, List.nodup_cons]
      refine ⟨?_, ih (q.1 :: seen)⟩
      intro hmem
      rcases List.mem_map.mp hmem with ⟨p, hp, hfst⟩
      exact keepFirst_not_seen rest (q.1 :: seen) hp
        (hfst ▸ List.mem_cons_self q.1 seen)

theorem parseLoop_mem_survivors (cfg : Config) (excl : List Str)
    (elems : List UrlElem) (seen : List Str) {p : Entry}
    (h : p ∈ parseLoop cfg excl elems seen) : p ∈ survivors cfg excl elems := by
  cases hd : cfg.dedupe_existing
  · rw [parseLoop_eq_survivors cfg excl hd elems seen] at h
    exact h
  · rw [parseLoop_eq_keepFirst cfg excl hd elems seen] at h
    exact keepFirst_mem _ seen h

theorem survivors_shape (cfg : Config) (excl : List Str)
    (elems : List UrlElem) {p : Entry} (h : p ∈ survivors cfg excl elems) :
    ∃ e ∈ elems, ∃ t, e.locText = some t ∧ t ≠ [] ∧
      normalize_url cfg t ∉ excl ∧ p = (normalize_url cfg t, lastmodOf e) := by
  rw [survivors, List.mem_filterMap] at h
  rcases h with ⟨e, he, hsome⟩
  refine ⟨e, he, ?_⟩
  rcases hloc : e.locText with _ | t
  · simp only [hloc] at hsome
    exact Option.noConfusion hsome
  · simp only [hloc] at hsome
    by_cases h0 : t = []
    · rw [if_pos h0] at hsome
      exact Option.noConfusion hsome
    · rw [if_neg h0] at hsome
      by_cases h1 : normalize_url cfg t ∈ excl
      · rw [if_pos h1] at hsome
        exact Option.noConfusion hsome
      · rw [if_neg h1] at hsome
        exact ⟨t, rfl, h0, h1, (Option.some.inj hsome).symm⟩

/-! ## Lemmas about the addition loop (`addLoop`) -/

theorem addLoop_dups_subset (ex : List Str) (d : Str) :
    ∀ (adds seen : List Str), ∀ x ∈ (addLoop ex d adds seen).2, x ∈ adds := by
  intro adds
  induction adds with
  | nil => intro seen x hx; exact absurd hx (by simp [addLoop])
  | cons a rest ih =>
    intro seen x hx
    simp only [addLoop] at hx
    by_cases hA : a = []
    · rw [if_pos hA] at hx
      exact List.mem_cons_of_mem a (ih seen x hx)
    · rw [if_neg hA] at hx
      by_cases hB : a ∈ ex ∨ a ∈ seen
      · rw [if_pos hB] at hx
        rcases List.mem_cons.mp hx with rfl | h2
        · exact List.mem_cons_self _ _
        · exact List.mem_cons_of_mem a (ih seen x h2)
      · rw [if_neg hB] at hx
        exact List.mem_cons_of_mem a (ih (a :: seen) x hx)

theorem addLoop_acc_shape (ex : List Str) (d : Str) :
    ∀ (adds seen : List Str), ∀ p ∈ (addLoop ex d adds seen).1,
      p.2 = some d ∧ p.1 ∈ adds := by
  intro adds
  induction adds with
  | nil => intro seen p hp; exact absurd hp (by simp [addLoop])
  | cons a rest ih =>
    intro seen p hp
    simp only [addLoop] at hp
    by_cases hA : a = []
    · rw [if_pos hA] at hp
      rcases ih seen p hp with ⟨h1, h2⟩
      exact ⟨h1, List.mem_cons_of_mem a h2⟩
    · rw [if_neg hA] at hp
      by_cases hB : a ∈ ex ∨ a ∈ seen
      · rw [if_pos hB] at hp
        rcases ih seen p hp with ⟨h1, h2⟩
        exact ⟨h1, List.mem_cons_of_mem a h2⟩
      · rw [if_neg hB] at hp
        rcases List.mem_cons.mp hp with rfl | h2
        · exact ⟨rfl, List.mem_cons_self _ _⟩
        · rcases ih (a :: seen) p h2 with ⟨h1, h3⟩
          exact ⟨h1, List.mem_cons_of_mem a h3⟩

theorem addLoop_acc_not (ex : List Str) (d : Str) :
    ∀ (adds seen : List Str), ∀ p ∈ (addLoop ex d adds seen).1,
      p.1 ∉ ex ∧ p.1 ∉ seen := by
  intro adds
  induction adds with
  | nil => intro seen p hp; exact absurd hp (by simp [addLoop])
  | cons a rest ih =>
    intro seen p hp
    simp only [addLoop] at hp
    by_cases hA : a = []
    · rw [if_pos hA] at hp
      exact ih seen p hp
    · rw [if_neg hA] at hp
      by_cases hB : a ∈ ex ∨ a ∈ seen
      · rw [if_pos hB] at hp
        exact ih seen p hp
      · rw [if_neg hB] at hp
        rcases List.mem_cons.mp hp with rfl | h2
        · push_neg at hB
          exact hB
        · rcases ih (a :: seen) p h2 with ⟨h1, h3⟩
          exact ⟨h1, fun hmem => h3 (List.mem_cons_of_mem a hmem)⟩

theorem addLoop_acc_nodup (ex : List Str) (d : Str) :
    ∀ (adds seen : List Str),
      ((addLoop ex d adds seen).1.map Prod.fst).Nodup := by
  intro adds
  induction adds with
  | nil => intro seen; simp [addLoop]
  | cons a rest ih =>
    intro seen
    simp only [addLoop]
    by_cases hA : a = []
    · rw [if_pos hA]
      exact ih seen
    · rw [if_neg hA]
      by_cases hB : a ∈ ex ∨ a ∈ seen
      · rw [if_pos hB]
        exact ih seen
      · rw [if_neg hB]
        show ((a, some d) :: (addLoop ex d rest (a :: seen)).1).map Prod.fst |>.Nodup
        rw [List.map_cons, List.nodup_cons]
        refine ⟨?_, ih (a :: seen)⟩
        intro hmem
        rcases List.mem_map.mp hmem with ⟨p, hp, hfst⟩
        rcases addLoop_acc_not ex d rest (a :: seen) p hp with ⟨_, h3⟩
        exact h3 (hfst ▸ List.mem_cons_self a seen)

theorem addLoop_length (ex : List Str) (d : Str) :
    ∀ (adds seen : List Str), (∀ a ∈ adds, a ≠ []) →
      (addLoop ex d adds seen).1.length + (addLoop ex d adds seen).2.length
        = adds.length := by
  intro adds
  induction adds with
  | nil => intro seen _; rfl
  | cons a rest ih =>
    intro seen h
    have hA : a ≠ [] := h a (List.mem_cons_self a rest)
    have hrest : ∀ x ∈ rest, x ≠ [] := fun x hx => h x (List.mem_cons_of_mem a hx)
    simp only [addLoop, if_neg hA]
    by_cases hB : a ∈ ex ∨ a ∈ seen
    · rw [if_pos hB]
      show (addLoop ex d rest seen).1.length
          + (a :: (addLoop ex d rest seen).2).length = (a :: rest).length
      rw [List.length_cons, List.length_cons, ← ih seen hrest]
      omega
    · rw [if_neg hB]
      show ((a, some d) :: (addLoop ex d rest (a :: seen)).1).length
          + (addLoop ex d rest (a :: seen)).2.length = (a :: rest).length
      rw [List.length_cons, List.length_cons, ← ih (a :: seen) hrest]
      omega

theorem addLoop_eq_specLoop (ex : List Str) (d : Str) :
    ∀ (adds seen : List Str), (∀ a ∈ adds, a ≠ []) →
      addLoop ex d adds seen = specLoop ex d adds seen := by
  intro adds
  induction adds with
  | nil => intro seen _; rfl
  | cons a rest ih =>
    intro seen h
    have hA : a ≠ [] := h a (List.mem_cons_self a rest)
    have hrest : ∀ x ∈ rest, x ≠ [] := fun x hx => h x (List.mem_cons_of_mem a hx)
    simp only [addLoop, specLoop, if_neg hA]
    by_cases hB : a ∈ ex ∨ a ∈ seen
    · rw [if_pos hB, if_pos hB, ih seen hrest]
    · rw [if_neg hB, if_neg hB, ih (a :: seen) hrest]

/-! ## Fixed points of `normalize_url` -/

theorem normalize_eval (cfg : Config) (u : Str) :
    normalize_url cfg u =
      (if cfg.normalize_trailing_slash ∧
          (if cfg.lower_case_urls then pyLower (pyStrip u) else pyStrip u).length > 1 then
        (if endsWithSlash (if cfg.lower_case_urls then pyLower (pyStrip u) else pyStrip u) ∧
            strContains (if cfg.lower_case_urls then pyLower (pyStrip u) else pyStrip u)
              ([':', '/', '/']) ∧
            (if cfg.lower_case_urls then pyLower (pyStrip u) else pyStrip u).count '/' > 2 then
          (if cfg.lower_case_urls then pyLower (pyStrip u) else pyStrip u).dropLast
        else (if cfg.lower_case_urls then pyLower (pyStrip u) else pyStrip u))
      else (if cfg.lower_case_urls then pyLower (pyStrip u) else pyStrip u)) := rfl

theorem norm_stage_strip (cfg : Config) (u : Str) :
    pyStrip (if cfg.lower_case_urls then pyLower (pyStrip u) else pyStrip u)
      = (if cfg.lower_case_urls then pyLower (pyStrip u) else pyStrip u) := by
  by_cases hlc : cfg.lower_case_urls = true
  · rw [if_pos hlc]
    exact pyStrip_pyLower_pyStrip u
  · rw [if_neg hlc]
    exact pyStrip_idem u

theorem norm_stage_lower (cfg : Config) (u : Str)
    (h : cfg.lower_case_urls = true) :
    pyLower (if cfg.lower_case_urls then pyLower (pyStrip u) else pyStrip u)
      = (if cfg.lower_case_urls then pyLower (pyStrip u) else pyStrip u) := by
  rw [if_pos h]
  exact pyLower_idem (pyStrip u)

theorem normalize_fix (cfg : Config) (s : Str)
    (hstrip : pyStrip s = s)
    (hlower : cfg.lower_case_urls = true → pyLower s = s)
    (hc : ¬(cfg.normalize_trailing_slash ∧ s.length > 1) ∨
      ¬(endsWithSlash s ∧ strContains s ([':', '/', '/']) ∧ s.count '/' > 2)) :
    normalize_url cfg s = s := by
  have hstage : (if cfg.lower_case_urls then pyLower (pyStrip s) else pyStrip s) = s := by
    by_cases hlc : cfg.lower_case_urls = true
    · rw [if_pos hlc, hstrip]
      exact hlower hlc
    · rw [if_neg hlc]
      exact hstrip
  rw [normalize_eval, hstage]
  rcases hc with hc | hc
  · rw [if_neg hc]
  · by_cases h1 : cfg.normalize_trailing_slash ∧ s.length > 1
    · rw [if_pos h1, if_neg hc]
    · rw [if_neg h1]

/-! ## Claims -/

/-- C5 (corrected). Idempotence of normalization holds whenever
`trim_trailing_slash` is disabled, and with it enabled whenever the
normalized string does not end in `/` or whitespace; in general it fails
with trimming enabled (see the counterexample). -/
theorem normalize_url_idem_amended (cfg : Config) (u : Str)
    (h : cfg.normalize_trailing_slash = false ∨
      (endsWithSlash (normalize_url cfg u) = false ∧
        ∀ c, (normalize_url cfg u).getLast? = some c → isWs c = false)) :
    normalize_url cfg (normalize_url cfg u) = normalize_url cfg u := by
  have hv0 := normalize_eval cfg u
  set S := (if cfg.lower_case_urls then pyLower (pyStrip u) else pyStrip u) with hS
  have hstrip : pyStrip S = S := by
    rw [hS]
    exact norm_stage_strip cfg u
  have hlower : cfg.lower_case_urls = true → pyLower S = S := by
    intro hlc
    rw [hS]
    exact norm_stage_lower cfg u hlc
  by_cases h1 : cfg.normalize_trailing_slash ∧ S.length > 1
  · by_cases h2 : endsWithSlash S ∧ strContains S ([':', '/', '/']) ∧ S.count '/' > 2
    · have hv : normalize_url cfg u = S.dropLast := by
        rw [hv0, if_pos h1, if_pos h2]
      rcases h with htrim | ⟨hslash, hws⟩
      · exact absurd h1.1 (by rw [htrim]; exact Bool.false_ne_true)
      · have hlen3 : 3 ≤ S.length := by
          have hcle := List.count_le_length (a := '/') (l := S)
          have hcnt := h2.2.2
          omega
        rw [hv]
        apply normalize_fix
        · apply pyStrip_eq_self
          · intro c hc
            rw [head?_dropLast S (by omega)] at hc
            rw [← hstrip] at hc
            exact pyStrip_head? S hc
          · intro c hc
            apply hws c
            rw [hv]
            exact hc
        · intro hlc
          rw [pyLower, List.map_dropLast]
          show (pyLower S).dropLast = S.dropLast
          rw [hlower hlc]
        · right
          intro hcond
          have hfalse : endsWithSlash (S.dropLast) = false := by
            rw [← hv]
            exact hslash
          exact absurd hcond.1 (by rw [hfalse]; exact Bool.false_ne_true)
    · have hv : normalize_url cfg u = S := by
        rw [hv0, if_pos h1, if_neg h2]
      rw [hv]
      exact normalize_fix cfg S hstrip hlower (Or.inr h2)
  · have hv : normalize_url cfg u = S := by
      rw [hv0, if_neg h1]
    rw [hv]
    exact normalize_fix cfg S hstrip hlower (Or.inl h1)

/-- C5 counterexample: with trailing-slash trimming enabled, normalization
is not idempotent at `"http://a//"`; one application gives `"http://a/"`,
which a second application trims again to `"http://a"`. -/
theorem normalize_url_not_idempotent_cex :
    normalize_url ⟨false, true, true⟩
        (normalize_url ⟨false, true, true⟩ (("http://a//").toList))
      ≠ normalize_url ⟨false, true, true⟩ (("http://a//").toList) := by
  decide

/-- Witness for C5: the amended idempotence theorem applied at a concrete
configuration with trimming disabled and a concrete string. -/
theorem normalize_url_idem_amended_witness :
    (⟨false, false, true⟩ : Config).normalize_trailing_slash = false ∧
    normalize_url ⟨false, false, true⟩
        (normalize_url ⟨false, false, true⟩ (("  http://A/ ").toList))
      = normalize_url ⟨false, false, true⟩ (("  http://A/ ").toList) :=
  ⟨rfl, normalize_url_idem_amended ⟨false, false, true⟩ (("  http://A/ ").toList)
    (Or.inl rfl)⟩

/-- C4 (code bug): with trailing-slash trimming enabled the code strips the
trailing slash of the bare domain root `https://ex.com/` as well — the root
has exactly three `/` characters, so the `count("/") > 2` guard fires —
contradicting the code's own comment ("Do not remove slash if the URL is
just the domain root") and the spec's Scenario D, which expect the root
preserved; deeper paths such as `https://ex.com/page/` are trimmed as both
expect. -/
theorem normalize_url_trims_domain_root :
    normalize_url ⟨false, true, true⟩ (("https://ex.com/").toList)
        = ("https://ex.com").toList ∧
    normalize_url ⟨false, true, true⟩ (("https://ex.com/page/").toList)
        = ("https://ex.com/page").toList :=
  ⟨by decide, by decide⟩

/-- C9 (confirmed): with no upload the run stops at the missing-input
warning; a `ParseError` is surfaced by its own distinct handler; in both
cases no sitemap output is produced, and the three outcomes are pairwise
distinct. -/
theorem pipeline_error_handling (cfg : Config) (exclRaw addRaw d : Str) :
    runPipeline cfg none exclRaw addRaw d = RunResult.missingInput ∧
    sitemapOutput (runPipeline cfg none exclRaw addRaw d) = none ∧
    (∀ m, runPipeline cfg (some (Except.error m)) exclRaw addRaw d
        = RunResult.parseFailed m) ∧
    (∀ m, sitemapOutput
        (runPipeline cfg (some (Except.error m)) exclRaw addRaw d) = none) ∧
    (∀ m, RunResult.parseFailed m ≠ RunResult.missingInput) ∧
    (∀ m f dups, RunResult.parseFailed m ≠ RunResult.success f dups) := by
  refine ⟨rfl, rfl, fun m => rfl, fun m => rfl, fun m h => ?_, fun m f dups h => ?_⟩
  · exact RunResult.noConfusion h
  · exact RunResult.noConfusion h

/-- C1 (corrected, positive half): when `dedupe_existing` is on, the final
entry sequence has pairwise-distinct normalized locations, for every
uploaded document, exclusion set, addition list and date. -/
theorem final_urls_locations_nodup (cfg : Config) (excl : List Str)
    (elems : List UrlElem) (adds : List Str) (d : Str)
    (hd : cfg.dedupe_existing = true) :
    ((final_urls cfg excl elems adds d).map Prod.fst).Nodup := by
  show ((existing_urls cfg excl elems
      ++ (addLoop ((existing_urls cfg excl elems).map Prod.fst) d adds []).1).map
        Prod.fst).Nodup
  rw [List.map_append, List.nodup_append]
  refine ⟨?_, addLoop_acc_nodup _ _ _ _, ?_⟩
  · rw [existing_urls, parseLoop_eq_keepFirst cfg excl hd elems []]
    exact keepFirst_nodup _ _
  · intro x hx hx2
    rcases List.mem_map.mp hx2 with ⟨p, hp, hfst⟩
    rcases addLoop_acc_not _ _ _ _ p hp with ⟨h1, _⟩
    apply h1
    rw [hfst]
    exact hx

/-- Witness for C1: the deduplicated-final-nodup theorem applied to a
concrete run. -/
theorem final_urls_locations_nodup_witness :
    (⟨false, false, true⟩ : Config).dedupe_existing = true ∧
    ((final_urls ⟨false, false, true⟩ [] [⟨some (("a").toList), none⟩]
        [("b").toList] (("d").toList)).map Prod.fst).Nodup :=
  ⟨rfl, final_urls_locations_nodup ⟨false, false, true⟩ []
    [⟨some (("a").toList), none⟩] [("b").toList] (("d").toList) rfl⟩

/-- C1 counterexample: with `dedupe_existing` off, a document listing the
same URL twice yields a final sequence with a repeated location, so the
claim's "including when cfg.dedupe_existing is false" fails. -/
theorem final_urls_duplicate_locations_cex :
    ¬ ((final_urls ⟨false, false, false⟩ []
        [⟨some (("a").toList), none⟩, ⟨some (("a").toList), none⟩] []
        (("d").toList)).map Prod.fst).Nodup := by
  decide

/-- C2 (confirmed): for every existing-entry list, addition list of
non-empty strings (the caller's line-splitting filters blanks, see C10) and
configured date, the code's addition pass coincides with the spec's
description `specLoop` — duplicates are exactly the additions already in
the existing-location set or accepted earlier in the pass, every other
addition is appended as `(location, add_lastmod)` — and the final sequence
is the existing entries unchanged, in order, followed by the accepted
additions in input order. -/
theorem reconcile_follows_spec (ex : List Entry) (adds : List Str) (d : Str)
    (h : ∀ a ∈ adds, a ≠ []) :
    addLoop (ex.map Prod.fst) d adds [] = specLoop (ex.map Prod.fst) d adds [] ∧
    (∀ cfg excl elems, final_urls cfg excl elems adds d
        = existing_urls cfg excl elems
          ++ (specLoop ((existing_urls cfg excl elems).map Prod.fst) d adds []).1) := by
  refine ⟨addLoop_eq_specLoop _ _ _ _ h, fun cfg excl elems => ?_⟩
  show existing_urls cfg excl elems
      ++ (addLoop ((existing_urls cfg excl elems).map Prod.fst) d adds []).1
    = existing_urls cfg excl elems
      ++ (specLoop ((existing_urls cfg excl elems).map Prod.fst) d adds []).1
  rw [addLoop_eq_specLoop _ _ _ _ h]

/-- Witness for C2: the reconciler/spec agreement at a concrete run with
one duplicate and one fresh addition. -/
theorem reconcile_follows_spec_witness :
    addLoop (([((("a").toList : Str), none)] : List Entry).map Prod.fst)
        (("d").toList) [("a").toList, ("c").toList] []
      = specLoop (([((("a").toList : Str), none)] : List Entry).map Prod.fst)
        (("d").toList) [("a").toList, ("c").toList] [] :=
  (reconcile_follows_spec ([((("a").toList : Str), none)] : List Entry)
    [("a").toList, ("c").toList] (("d").toList) (by decide)).1

/-- C3 counterexample: a URL present in the uploaded sitemap and in the
exclusion set reappears in the final output when it is also in the addition
list — the exclusion only filters the existing entries, after which the
URL is no longer in the existing-location set and is accepted as a fresh
addition. -/
theorem excluded_url_in_output_cex :
    (final_urls ⟨false, false, true⟩ [("http://e/a").toList]
        [⟨some (("http://e/a").toList), none⟩] [("http://e/a").toList]
        (("2025-06-01").toList)).map Prod.fst
      = [("http://e/a").toList] := by
  decide

/-- C3 (corrected): an excluded URL never survives from the existing
sitemap — no surviving existing entry has an excluded location — and any
occurrence of an excluded location in the final output is a fresh addition,
carrying the configured date and stemming from the addition list. -/
theorem exclusion_drops_existing_only (cfg : Config) (excl : List Str)
    (elems : List UrlElem) (adds : List Str) (d : Str) :
    (∀ p ∈ existing_urls cfg excl elems, p.1 ∉ excl) ∧
    (∀ p ∈ final_urls cfg excl elems adds d, p.1 ∈ excl →
      p.2 = some d ∧ p.1 ∈ adds) := by
  have hfirst : ∀ p ∈ existing_urls cfg excl elems, p.1 ∉ excl := by
    intro p hp hmem
    rcases survivors_shape cfg excl elems
        (parseLoop_mem_survivors cfg excl elems [] hp) with
      ⟨e, he, t, hlt, h0, h1, hpe⟩
    rw [hpe] at hmem
    exact h1 hmem
  refine ⟨hfirst, ?_⟩
  intro p hp hmem
  have hp2 : p ∈ existing_urls cfg excl elems
      ++ (addLoop ((existing_urls cfg excl elems).map Prod.fst) d adds []).1 := hp
  rcases List.mem_append.mp hp2 with hex | hacc
  · exact absurd hmem (hfirst p hex)
  · exact addLoop_acc_shape _ _ _ _ p hacc

/-- Witness for C3: at the counterexample run, the excluded URL's final
occurrence indeed carries the configured date and comes from the addition
list. -/
theorem exclusion_drops_existing_only_witness :
    ((("http://e/a").toList, some (("2025-06-01").toList)) : Entry).2
        = some (("2025-06-01").toList) ∧
    (("http://e/a").toList ∈ ([("http://e/a").toList] : List Str)) :=
  (exclusion_drops_existing_only ⟨false, false, true⟩ [("http://e/a").toList]
    [⟨some (("http://e/a").toList), none⟩] [("http://e/a").toList]
    (("2025-06-01").toList)).2
    (("http://e/a").toList, some (("2025-06-01").toList)) (by decide) (by decide)

/-- C6 (confirmed): exclusion is applied before deduplication — the
parser's output is exactly the exclusion-filtered survivors, first-occurrence
deduplicated (keeping that occurrence's lastmod) when `dedupe_existing` is
on and taken whole when it is off, so excluded entries never enter the
dedupe-tracking set — and the duplicate report only ever contains addition
lines, never existing-sitemap self-duplicates. -/
theorem parser_exclusion_before_dedupe (cfg : Config) (excl : List Str)
    (elems : List UrlElem) :
    (cfg.dedupe_existing = true →
      existing_urls cfg excl elems = keepFirst (survivors cfg excl elems) []) ∧
    (cfg.dedupe_existing = false →
      existing_urls cfg excl elems = survivors cfg excl elems) ∧
    (∀ p ∈ survivors cfg excl elems, p.1 ∉ excl) ∧
    (∀ adds d, ∀ x ∈ duplicates cfg excl elems adds d, x ∈ adds) := by
  refine ⟨fun hd => parseLoop_eq_keepFirst cfg excl hd elems [],
    fun hd => parseLoop_eq_survivors cfg excl hd elems [], ?_, ?_⟩
  · intro p hp hmem
    rcases survivors_shape cfg excl elems hp with ⟨e, he, t, hlt, h0, h1, hpe⟩
    rw [hpe] at hmem
    exact h1 hmem
  · intro adds d x hx
    exact addLoop_dups_subset _ _ adds [] x hx

/-- Witness for C6: the parser/factored-form agreement at a concrete run
with an excluded first occurrence and an internal duplicate. -/
theorem parser_exclusion_before_dedupe_witness :
    (⟨false, false, true⟩ : Config).dedupe_existing = true ∧
    existing_urls ⟨false, false, true⟩ [("b").toList]
        [⟨some (("b").toList), none⟩, ⟨some (("a").toList), none⟩,
          ⟨some (("a").toList), some (("x").toList)⟩]
      = keepFirst (survivors ⟨false, false, true⟩ [("b").toList]
          [⟨some (("b").toList), none⟩, ⟨some (("a").toList), none⟩,
            ⟨some (("a").toList), some (("x").toList)⟩]) [] :=
  ⟨rfl, (parser_exclusion_before_dedupe ⟨false, false, true⟩ [("b").toList]
    [⟨some (("b").toList), none⟩, ⟨some (("a").toList), none⟩,
      ⟨some (("a").toList), some (("x").toList)⟩]).1 rfl⟩

/-- C7 counterexample: a `lastmod` text with surrounding whitespace is not
retained verbatim — the code stores its stripped form. -/
theorem lastmod_not_verbatim_cex :
    existing_urls ⟨false, false, true⟩ []
        [⟨some (("http://e/a").toList), some ((" 2024-01-01 ").toList)⟩]
      = [((("http://e/a").toList), some (("2024-01-01").toList))] ∧
    ((("2024-01-01").toList : Str) ≠ (" 2024-01-01 ").toList) :=
  ⟨by decide, by decide⟩

/-- C7 (corrected): every final entry either is an addition of this run,
carrying the single configured date, or stems from a document element and
carries that element's derived lastmod — the whitespace-stripped text when
present and non-empty, absent otherwise — rather than the verbatim text. -/
theorem final_lastmod_provenance (cfg : Config) (excl : List Str)
    (elems : List UrlElem) (adds : List Str) (d : Str) :
    ∀ p ∈ final_urls cfg excl elems adds d,
      (p.2 = some d ∧ p.1 ∈ adds) ∨
      ∃ e ∈ elems, ∃ t, e.locText = some t ∧ p.1 = normalize_url cfg t ∧
        p.2 = lastmodOf e := by
  intro p hp
  have hp2 : p ∈ existing_urls cfg excl elems
      ++ (addLoop ((existing_urls cfg excl elems).map Prod.fst) d adds []).1 := hp
  rcases List.mem_append.mp hp2 with hex | hacc
  · right
    rcases survivors_shape cfg excl elems
        (parseLoop_mem_survivors cfg excl elems [] hex) with
      ⟨e, he, t, hlt, h0, h1, hpe⟩
    refine ⟨e, he, t, hlt, ?_, ?_⟩
    · rw [hpe]
    · rw [hpe]
  · left
    exact addLoop_acc_shape _ _ _ _ p hacc

/-- Witness for C7: the provenance disjunction at a concrete run whose one
final entry is a surviving existing entry. -/
theorem final_lastmod_provenance_witness :
    ((((("http://e/a").toList : Str), some (("2024-01-01").toList)) : Entry).2
          = some (("d").toList) ∧
        ((("http://e/a").toList : Str)
          ∈ ([] : List Str))) ∨
      ∃ e ∈ [(⟨some (("http://e/a").toList), some ((" 2024-01-01 ").toList)⟩ : UrlElem)],
        ∃ t, e.locText = some t ∧
          ((("http://e/a").toList : Str), some (("2024-01-01").toList)).1
            = normalize_url ⟨false, false, true⟩ t ∧
          ((("http://e/a").toList : Str), some (("2024-01-01").toList)).2
            = lastmodOf e :=
  final_lastmod_provenance ⟨false, false, true⟩ []
    [⟨some (("http://e/a").toList), some ((" 2024-01-01 ").toList)⟩] []
    (("d").toList)
    ((("http://e/a").toList, some (("2024-01-01").toList)) : Entry) (by decide)

/-- C8 counterexample: a `url` element whose `loc` text is a single space
is not skipped — Python's truthiness check sees a non-empty string — and
normalization then strips it to the empty string, so the parser emits an
entry with an empty location. -/
theorem whitespace_loc_empty_location_cex :
    existing_urls ⟨false, false, true⟩ [] [⟨some ([' ']), none⟩]
      = [(([] : Str), none)] := by
  decide

/-- C8 (corrected): elements with a missing or empty raw `loc` text are
silently skipped, but the skip tests the raw text, not the normalized one;
every parser-output location is non-empty provided each present `loc` text
has non-blank content (its strip is non-empty) — a whitespace-only text
defeats this, as the counterexample shows. -/
theorem parser_locations_nonempty_amended (cfg : Config) (excl : List Str)
    (elems : List UrlElem) :
    (∀ lm rest seen, parseLoop cfg excl (⟨none, lm⟩ :: rest) seen
        = parseLoop cfg excl rest seen) ∧
    (∀ lm rest seen, parseLoop cfg excl (⟨some [], lm⟩ :: rest) seen
        = parseLoop cfg excl rest seen) ∧
    ((∀ e ∈ elems, ∀ t, e.locText = some t → pyStrip t ≠ []) →
      ∀ p ∈ existing_urls cfg excl elems, p.1 ≠ []) := by
  refine ⟨fun lm rest seen => rfl, fun lm rest seen => rfl, ?_⟩
  intro h p hp
  rcases survivors_shape cfg excl elems
      (parseLoop_mem_survivors cfg excl elems [] hp) with
    ⟨e, he, t, hlt, h0, h1, hpe⟩
  rw [hpe]
  exact normalize_ne_nil cfg t (h e he t hlt)

/-- Witness for C8: the non-empty-location conclusion at a concrete run
whose single `loc` text has non-blank content. -/
theorem parser_locations_nonempty_amended_witness :
    ((("a").toList : Str), (none : Option Str)).1 ≠ [] :=
  (parser_locations_nonempty_amended ⟨false, false, true⟩ []
    [⟨some (("a").toList), none⟩]).2.2 (by decide)
    ((("a").toList : Str), none) (by decide)

/-- C10 (confirmed): the cleaned addition list contains only non-empty
strings (blank and whitespace-only lines are dropped before normalization,
and normalization cannot empty a non-blank line), and each cleaned addition
lands in exactly one of the final sequence or the duplicates list, so the
final count plus the duplicate count equals the surviving-existing count
plus the addition count. -/
theorem additions_partition (cfg : Config) (addRaw : Str) (excl : List Str)
    (elems : List UrlElem) (d : Str) :
    (∀ a ∈ clean_lines cfg addRaw, a ≠ []) ∧
    (final_urls cfg excl elems (clean_lines cfg addRaw) d).length
        + (duplicates cfg excl elems (clean_lines cfg addRaw) d).length
      = (existing_urls cfg excl elems).length
        + (clean_lines cfg addRaw).length := by
  have hne : ∀ a ∈ clean_lines cfg addRaw, a ≠ [] := by
    intro a ha
    rw [clean_lines] at ha
    by_cases hraw : addRaw = []
    · rw [if_pos hraw] at ha
      cases ha
    · rw [if_neg hraw] at ha
      rcases List.mem_map.mp ha with ⟨l, hl, hnorm⟩
      have hfl := List.mem_filter.mp hl
      have hstrip : pyStrip l ≠ [] := by simpa using hfl.2
      rw [← hnorm]
      exact normalize_ne_nil cfg l hstrip
  refine ⟨hne, ?_⟩
  show (existing_urls cfg excl elems
        ++ (addLoop ((existing_urls cfg excl elems).map Prod.fst) d
            (clean_lines cfg addRaw) []).1).length
      + (addLoop ((existing_urls cfg excl elems).map Prod.fst) d
          (clean_lines cfg addRaw) []).2.length
    = (existing_urls cfg excl elems).length + (clean_lines cfg addRaw).length
  rw [List.length_append]
  have hlen := addLoop_length ((existing_urls cfg excl elems).map Prod.fst) d
    (clean_lines cfg addRaw) [] hne
  omega
